import Mathlib

/-!
Verification of the f5-oslbaasv2-ops command-template expander and batch
executor (`main.go`) against its natural-language specification.

The development shallowly embeds the Go source:

* Strings are `List Char` (Go strings are byte sequences; all relevant text
  is ASCII).
* `map[string]StringArray` becomes a total function `VarMap`; a missing key
  maps to `[]`, exactly like a Go `nil` slice obtained from a map miss.
* Code that need not terminate or can panic in Go (`ConstructFromTemplate`
  on self-referential values, the status-polling loop, the value-range
  counting loop at `MaxInt64`, the slice indexing in `CheckExecution`) is
  embedded with fuel or an explicit `Option`: `none` means the Go execution
  does not return (non-termination or panic, each case documented at its
  definition).
* Process execution is embedded as an oracle `Nat → ProcSpec` giving, for
  the i-th spawned process, the outcome of `Start`/`Wait`, the captured
  stderr text, the parse of stdout, the exit code, and the wall-clock
  duration.  A `WorldSt` record threads the spawn counter, a clock
  (advanced only by process execution, the idealisation the spec uses when
  it equates durations), and the trace of command strings handed to
  `RunCommand`.
-/

/-! ## Placeholder Scanner (main.go line 48: `%\{[a-zA-Z_][a-zA-Z0-9_]*\}`) -/

/-- Character class `[a-zA-Z_]`, the first character of a placeholder name. -/
def identStartChar (c : Char) : Bool :=
  ('a' ≤ c && c ≤ 'z') || ('A' ≤ c && c ≤ 'Z') || c == '_'

/-- Character class `[a-zA-Z0-9_]`, the remaining characters of a name. -/
def identTailChar (c : Char) : Bool :=
  identStartChar c || ('0' ≤ c && c ≤ '9')

/-- Attempt to match the regexp `%\{[a-zA-Z_][a-zA-Z0-9_]*\}` at the head of
the string, returning the matched token.  The class `[a-zA-Z0-9_]*` is
greedy, but since `\x7d` is not in the class the match is the maximal
identifier run followed by a closing brace, which is what this computes. -/
def matchVarAt : List Char → Option (List Char)
  | '%' :: '{' :: c :: rest =>
    if identStartChar c then
      match rest.dropWhile identTailChar with
      | '}' :: _ => some ('%' :: '{' :: c :: (rest.takeWhile identTailChar ++ ['}']))
      | _ => none
    else none
  | _ => none

/-- Leftmost match of the placeholder regexp, as `varRegexp.FindString`
(`none` models the empty-string result Go uses for "no match"; a real match
is never empty, so no information is lost). -/
def findVar : List Char → Option (List Char)
  | [] => none
  | c :: rest =>
    match matchVarAt (c :: rest) with
    | some m => some m
    | none => findVar rest

/-- Name of a matched token, `m[2 : len(m)-1]` (main.go line 254). -/
def varNameOf (m : List Char) : List Char := (m.drop 2).dropLast

/-! ## Literal replacement (main.go lines 256-259)

`regexp.MustCompile(varInTmp)` compiles the matched token `%\x7bname\x7d`
itself; the only non-literal characters it can contain are the braces, which
Go's RE2 parser treats as literals because they do not begin a valid
repetition, so the compiled pattern matches exactly the literal token.
`ReplaceAllString` then replaces every (non-overlapping, leftmost-first)
occurrence.  `ReplaceAllString` would additionally expand `$`-references in
the replacement text; the embedding replaces literally, and every theorem
that relies on this definition therefore restricts values to `$`-free
strings. -/

/-- Worker for `replaceAll`: `skip` counts characters of a just-replaced
occurrence that remain to be consumed. -/
def replAux (t v : List Char) : Nat → List Char → List Char
  | _, [] => []
  | Nat.succ k, _ :: rest => replAux t v k rest
  | 0, c :: rest =>
    if t.isPrefixOf (c :: rest) then v ++ replAux t v (t.length - 1) rest
    else c :: replAux t v 0 rest

/-- Replace every occurrence of `t` in `s` by `v` (literal semantics of
`r.ReplaceAllString(template, k)` for the token patterns produced by
`ConstructFromTemplate`). -/
def replaceAll (t v s : List Char) : List Char := replAux t v 0 s

/-! ## Template Expander (main.go lines 246-262) -/

/-- Placeholder-to-values mapping.  A Go map miss yields the `nil` slice,
so the embedding is a total function defaulting to `[]`. -/
def VarMap := List Char → List (List Char)

/-- Recursive cartesian-product expansion, `ConstructFromTemplate`
(main.go 246-262), with the global `cmdList` accumulator made explicit as
the returned list.  Fuel bounds the recursion depth; `none` means the Go
recursion does not return within that depth (for suitable templates a fuel
of one more than the number of distinct placeholder names is always enough,
and the function is monotone in fuel, so `none` for every fuel is exactly
Go-level non-termination). -/
def ConstructFromTemplate (vars : VarMap) : Nat → List Char → Option (List (List Char))
  | 0, _ => none
  | Nat.succ fuel, template =>
    match findVar template with
    | none => some [template]
    | some tok =>
      (vars (varNameOf tok)).foldr
        (fun v acc =>
          match ConstructFromTemplate vars fuel (replaceAll tok v template), acc with
          | some xs, some ys => some (xs ++ ys)
          | _, _ => none)
        (some [])

/-- Termination of the Go recursion on `template` under `vars`: some fuel
suffices. -/
def TerminatesCFT (vars : VarMap) (template : List Char) : Prop :=
  ∃ fuel, (ConstructFromTemplate vars fuel template).isSome = true

/-! ## Value-List Parser (main.go lines 264-287) -/

/-- Numeric value of a digit string (the input is guaranteed all-digits by
the anchored pattern before `strconv.Atoi` is reached). -/
def natOfDigits (ds : List Char) : Nat :=
  ds.foldl (fun a c => a * 10 + (c.toNat - 48)) 0

/-- Largest value of Go's 64-bit `int`, `math.MaxInt64`. -/
def maxI64 : Nat := 2 ^ 63 - 1

/-- Value returned by `strconv.Atoi` on an all-digit string: the exact value
when it fits in `int`, otherwise the clamped `math.MaxInt64` that `Atoi`
returns together with `ErrRange`.  The source discards the error
(`s, _ := strconv.Atoi(...)`) and uses this value. -/
def atoiVal (ds : List Char) : Int :=
  if natOfDigits ds ≤ maxI64 then (natOfDigits ds : Int) else (maxI64 : Int)

/-- Whether `strconv.Atoi` reports an error (`ErrRange`) on an all-digit
string, i.e. whether integer parsing of the range part fails. -/
def atoiOverflows (ds : List Char) : Bool := decide (maxI64 < natOfDigits ds)

/-- Worker for `natDigits` (fuel is the starting number plus one, always
sufficient). -/
def natDigitsAux : Nat → Nat → List Char → List Char
  | 0, _, acc => acc
  | Nat.succ f, n, acc =>
    if n < 10 then Nat.digitChar n :: acc
    else natDigitsAux f (n / 10) (Nat.digitChar (n % 10) :: acc)

/-- Decimal digits of a natural number, most significant first. -/
def natDigits (n : Nat) : List Char := natDigitsAux (n + 1) n []

/-- Decimal rendering of an integer, `fmt.Sprintf("%d", i)`. -/
def intDec (i : Int) : List Char :=
  if i < 0 then '-' :: natDigits (-i).toNat else natDigits i.toNat

/-- Values visited by a terminating run of the loop `for i := s; i <= e; i++`:
the integers of `[s, e]` in ascending order (empty when `s > e`).  Whether
the loop terminates at all is decided by `rangeLoop`. -/
def rangeAsc (s e : Int) : List Int :=
  (List.range (e + 1 - s).toNat).map fun k : Nat => s + (k : Int)

/-- Outcome of the loop `for i := s; i <= e; i++` over Go's 64-bit `int`
(main.go line 279).  When the loop is entered with `e = math.MaxInt64`, the
increment at `i = e` wraps to `math.MinInt64` (signed overflow is defined
wrap-around in Go), the condition `i <= e` holds again, and the loop never
exits: `none` models that non-returning call.  In every other case `i`
never reaches the wrap point, the loop exits after visiting exactly the
integers of `[s, e]` in ascending order, and the outcome is
`some (rangeAsc s e)`. -/
def rangeLoop (s e : Int) : Option (List Int) :=
  if s ≤ e ∧ e = ((maxI64 : Nat) : Int) then none else some (rangeAsc s e)

/-- Anchored pattern `^\d+\-\d+$` (main.go line 272).  Because `-` is not a
digit, the greedy `\d+` is the maximal digit run, so the test below is
exactly the regexp. -/
def isRangeTok (t : List Char) : Bool :=
  let d1 := t.takeWhile Char.isDigit
  (!d1.isEmpty) &&
    match t.dropWhile Char.isDigit with
    | '-' :: d2 => (!d2.isEmpty) && d2.all Char.isDigit
    | _ => false

/-- Split on a single-character separator, as Go `strings.Split` with a
one-character separator string (`""` input yields `[""]`, trailing and
consecutive separators yield empty fields). -/
def splitSep (sep : Char) : List Char → List (List Char)
  | [] => [[]]
  | c :: rest =>
    if c = sep then [] :: splitSep sep rest
    else
      match splitSep sep rest with
      | [] => [[c]]
      | g :: gs => (c :: g) :: gs

/-- Contribution of one comma-separated token to the result list
(the body of the loop in main.go lines 273-285); `none` when the counting
loop never returns (see `rangeLoop`). -/
def tokContribution (n : List Char) : Option (List (List Char)) :=
  if isRangeTok n then
    let se := splitSep '-' n
    let s := atoiVal (se.getD 0 [])
    let e := atoiVal (se.getD 1 [])
    (rangeLoop s e).map (fun l => l.map intDec)
  else some [n]

/-- Value-List Parser `ParseVarValues` (main.go lines 269-287): split on
commas, expand `digits-digits` tokens through `strconv.Atoi` and the
counting loop, pass every other token through verbatim.  `none` means the
call never returns (a range token's counting loop diverges, see
`rangeLoop`).  The Go function returns only `[]string`; it has no error
result, so parse errors cannot propagate. -/
def ParseVarValues (v : List Char) : Option (List (List Char)) :=
  (splitSep ',' v).foldl
    (fun rlt n =>
      match rlt, tokContribution n with
      | some r, some c => some (r ++ c)
      | _, _ => none)
    (some [])

/-- Modelled from the spec's words for claim C7 (a refinement target, not a
translation of the source): each token of the comma-split either is a range
token, contributing the decimal strings of its inclusive integer range in
ascending order at its own position — with the endpoints read as exact
(unbounded) integers — or is contributed verbatim. -/
def specTokExpansion (n : List Char) : List (List Char) :=
  if isRangeTok n then
    let a : Int := natOfDigits ((splitSep '-' n).getD 0 [])
    let b : Int := natOfDigits ((splitSep '-' n).getD 1 [])
    (rangeAsc a b).map intDec
  else [n]

/-- Modelled from the spec's words for claim C7: the whole value list is the
in-order concatenation of the per-token expansions. -/
def specValueList (v : List Char) : List (List Char) :=
  ((splitSep ',' v).map specTokExpansion).flatten

/-! ## Command Runner (main.go lines 135-176) -/

/-- JSON objects as read by this program: the core only ever consumes
string-valued fields (`id`, `provisioning_status`), so an object is an
association list from field name to string value. -/
def JObj := List (List Char × List Char)

instance : DecidableEq JObj := by unfold JObj; infer_instance

/-- Field lookup in a parsed object. -/
def lookupJ (o : JObj) (k : List Char) : Option (List Char) :=
  match o with
  | [] => none
  | (k', v) :: rest => if k' = k then some v else lookupJ rest k

/-- String printed by `fmt.Sprintf("%s", x)` when `x` is a `nil`
interface value, as produced by indexing a `nil`/missing map key. -/
def nilShowStr : List Char := "%!s(<nil>)".toList

/-- Reading of `rlt.Out[k]` followed by `%s` formatting: the field text, or
Go's rendering of the `nil` interface when the map is `nil` or the key is
missing. -/
def sprintfVal (out : Option JObj) (k : List Char) : List Char :=
  match out with
  | none => nilShowStr
  | some o => (lookupJ o k).getD nilShowStr

/-- Reading of a string field of `NeutronResponse` after
`json.Marshal(cr.Out)` / `json.Unmarshal(b, &stat)`: the field when
present, the zero value `""` when the map is `nil` or the key is missing. -/
def statField (out : Option JObj) (k : List Char) : List Char :=
  match out with
  | none => []
  | some o => (lookupJ o k).getD []

/-- Externally determined outcome of one spawned process: whether `Start`
fails (and with what message), the text the process writes to stderr,
whether `Wait` returns an error (and with what message), the structured
parse of stdout (`none` when `json.Unmarshal` fails), the raw stdout bytes,
the exit code reported by `ProcessState.ExitCode()`, and the wall-clock
duration of start-plus-wait. -/
structure ProcSpec where
  startErr : Option (List Char)
  stderrTxt : List Char
  waitErr : Option (List Char)
  parsedOut : Option JObj
  rawOut : List Char
  exitCode : Int
  dur : Nat
deriving DecidableEq

/-- One result record, Go struct `CommandResult` (main.go lines 31-41).
`Out = none` is the `nil` map. -/
structure CommandResult where
  Seq : Int
  Command : List Char
  Out : Option JObj
  Err : List Char
  ExitCode : Int
  Duration : Nat
  Checked : List Char
  CheckedDuration : Nat
deriving DecidableEq

/-- Observable state of the outside world threaded through the run: how many
processes have been spawned, the current clock (advanced only by process
execution), and the trace of command strings handed to `RunCommand`. -/
structure WorldSt where
  count : Nat
  clock : Nat
  trace : List (List Char)
deriving DecidableEq

/-- Command Runner `RunCommand` (main.go lines 135-176).  The i-th spawn
takes its outcome from `ora i`.  On a `Start` failure the source writes the
error's text into the buffer (line 153, the only content, since no process
ran) and then evaluates `c.ProcessState.ExitCode()` with `c.ProcessState`
still `nil`; `(*os.ProcessState).ExitCode` (Go 1.12+) is nil-safe and
returns the sentinel `-1` for a process that never started, so a normal
record is returned with `Err` the start-error text, `ExitCode = -1` and
`Out` the `nil` map.  Otherwise: `Err` is the captured stderr followed by
the `Wait` error text if any; `Out` stays the `nil` map on a `Wait` error,
is the parsed object on a successful parse, and falls back to a one-entry
`message` object wrapping the raw bytes when parsing fails. -/
def RunCommand (ora : Nat → ProcSpec) (cmd : List Char) (st : WorldSt) :
    Option (CommandResult × WorldSt) :=
  let ps := ora st.count
  let st' : WorldSt := ⟨st.count + 1, st.clock + ps.dur, st.trace ++ [cmd]⟩
  match ps.startErr with
  | some msg =>
    some ({ Seq := 0, Command := cmd, Out := none, Err := msg,
            ExitCode := -1, Duration := ps.dur,
            Checked := [], CheckedDuration := 0 }, st')
  | none =>
    let outObj : Option JObj :=
      match ps.waitErr with
      | some _ => none
      | none =>
        match ps.parsedOut with
        | some o => some o
        | none => some [("message".toList, ps.rawOut)]
    some ({ Seq := 0, Command := cmd, Out := outObj,
            Err := ps.stderrTxt ++ ps.waitErr.getD [],
            ExitCode := ps.exitCode, Duration := ps.dur,
            Checked := [], CheckedDuration := 0 }, st')

/-! ## Completion Poller (main.go lines 99-133) -/

/-- Operation-kind derivation of `CheckExecution` (main.go lines 101-103):
`args := strings.Split(rlt.Command, " ")`, `subs := strings.Split(args[1],
"-")`, `resourceType, operation := subs[1], subs[2]`.  The result carries
`args[1]` (used verbatim in the non-polling `Checked` message) together
with `subs[1]` and `subs[2]`.  `none` models the index-out-of-range panic
when a needed index does not exist. -/
def deriveOp (cmd : List Char) : Option (List Char × List Char × List Char) :=
  match (splitSep ' ' cmd).get? 1 with
  | none => none
  | some a1 =>
    match (splitSep '-' a1).get? 1, (splitSep '-' a1).get? 2 with
    | some rt, some op => some (a1, rt, op)
    | _, _ => none

/-- Message recorded when the check command itself fails (main.go 113). -/
def failChkMsg (cmd err : List Char) : List Char :=
  "Failed to check execution of ".toList ++ cmd ++ ": ".toList ++ err

/-- Busy-poll loop of `CheckExecution` (main.go lines 110-126), mutating the
local copy `rlt`.  Fuel bounds the number of `show` invocations; `none`
means the loop never leaves the `PENDING_` state (Go-level
non-termination).  The inner `none` match arm is unreachable because
`RunCommand` always returns a record; it mirrors the Option plumbing
only. -/
def pollLoop (ora : Nat → ProcSpec) (checkCmd : List Char) (rlt : CommandResult) :
    Nat → WorldSt → Option (CommandResult × WorldSt)
  | 0, _ => none
  | Nat.succ fuel, st =>
    match RunCommand ora checkCmd st with
    | none => none
    | some (cr, st') =>
      if cr.ExitCode ≠ 0 then
        some ({ rlt with Checked := failChkMsg rlt.Command cr.Err }, st')
      else
        if ("PENDING_".toList).isPrefixOf (statField cr.Out ("provisioning_status".toList)) then
          pollLoop ora checkCmd rlt fuel st'
        else
          let msg := statField cr.Out ("id".toList) ++ ": ".toList ++
            statField cr.Out ("provisioning_status".toList)
          some ({ rlt with Checked := msg }, st')

/-- Completion Poller `CheckExecution` (main.go lines 99-133).  The Go
function receives `rlt` **by value**; the record this embedding returns is
the function's local copy after its assignments — the caller's record is
unaffected (see `RunCmds`).  For a `create`/`update` operation it builds
`"neutron lbaas-<resourceType>-show <id>"` and polls; otherwise it sets
`Checked` to `args[1] + " done"` immediately.  In both branches
`CheckedDuration` becomes the clock time spent in the function plus the
original `Duration`. -/
def CheckExecution (ora : Nat → ProcSpec) (fuel : Nat) (rlt : CommandResult)
    (st : WorldSt) : Option (CommandResult × WorldSt) :=
  match deriveOp rlt.Command with
  | none => none
  | some (a1, rt, op) =>
    let fs := st.clock
    if op = "create".toList ∨ op = "update".toList then
      let checkCmd := "neutron lbaas-".toList ++ rt ++ "-show ".toList ++
        sprintfVal rlt.Out ("id".toList)
      match pollLoop ora checkCmd rlt fuel st with
      | none => none
      | some (r1, st') =>
        some ({ r1 with CheckedDuration := (st'.clock - fs) + rlt.Duration }, st')
    else
      let done := a1 ++ " done".toList
      some ({ rlt with Checked := done, CheckedDuration := (st.clock - fs) + rlt.Duration }, st)

/-! ## Orchestrator (main.go lines 79-97) -/

/-- Fixed command text prefixed to every expanded template,
`cmdPrefix = "neutron lbaas-"` (main.go line 55). -/
def cmdPfx : List Char := "neutron lbaas-".toList

/-- Orchestrator `RunCmds` (main.go lines 79-97) with the globals made
explicit: `cmds` is `cmdList`, `acc` the `cmdResults` accumulated so far,
and the returned list the final `cmdResults`.  Each command is run as
`cmdPrefix + n`; its result is appended; when the exit code is zero
`CheckExecution(cr)` is called — and because Go passes the struct by value
the updated copy is discarded (`_ignored` below), only the world effects of
the check survive.  `none` propagates a panic (the slice indexing in
`CheckExecution`) or non-termination (unbounded `PENDING_` polling); the
`none` arm after `RunCommand` is unreachable, since the Runner always
returns a record. -/
def RunCmds (ora : Nat → ProcSpec) (fuel : Nat) :
    List (List Char) → WorldSt → List CommandResult →
    Option (List CommandResult × WorldSt)
  | [], st, acc => some (acc, st)
  | n :: rest, st, acc =>
    match RunCommand ora (cmdPfx ++ n) st with
    | none => none
    | some (cr, st') =>
      let acc' := acc ++ [cr]
      if cr.ExitCode ≠ 0 then RunCmds ora fuel rest st' acc'
      else
        match CheckExecution ora fuel cr st' with
        | none => none
        | some (_ignored, st'') => RunCmds ora fuel rest st'' acc'

/-- Shape of every command string the Completion Poller hands to the
Command Runner. -/
def checkShaped (c : List Char) : Prop :=
  ∃ rt idv, c = "neutron lbaas-".toList ++ rt ++ "-show ".toList ++ idv

/-! ## Structured templates

For the expansion claims we single out the templates in which `%` occurs
only as the head of a well-formed placeholder token: such a template is an
alternation of `%`-free literal segments and `%\x7bname\x7d` tokens.  The
bridge lemmas below show that on this class the character-level scanner and
replacer behave exactly like the evident structural operations. -/

/-- One item of a structured template: a literal segment or a placeholder. -/
inductive TItem where
  | seg : List Char → TItem
  | phv : List Char → TItem
deriving DecidableEq

/-- Structured template. -/
def Tpl := List TItem

/-- Token text of a placeholder name. -/
def tokStr (n : List Char) : List Char := '%' :: '{' :: (n ++ ['}'])

/-- Character string of a structured template. -/
def flattenTpl : Tpl → List Char
  | [] => []
  | TItem.seg s :: r => s ++ flattenTpl r
  | TItem.phv n :: r => tokStr n ++ flattenTpl r

/-- Well-formed placeholder name: matches `[a-zA-Z_][a-zA-Z0-9_]*`. -/
def goodName : List Char → Bool
  | [] => false
  | c :: r => identStartChar c && r.all identTailChar

/-- Literal segments must not contain `%`. -/
def goodSeg (s : List Char) : Bool := s.all (fun c => c != '%')

/-- Well-formedness of one item. -/
def goodItem : TItem → Bool
  | TItem.seg s => goodSeg s
  | TItem.phv n => goodName n

/-- Well-formedness of a structured template. -/
def goodTpl (tp : Tpl) : Bool := tp.all goodItem

/-- Substitution-safe value: contains neither `%` (which could create a new
placeholder occurrence) nor `$` (which `ReplaceAllString` would expand). -/
def goodVal (v : List Char) : Bool := v.all (fun c => c != '%' && c != '$')

/-- Substitution safety for every value of every placeholder. -/
def GoodVars (vars : VarMap) : Prop := ∀ n v, v ∈ vars n → goodVal v = true

/-- Placeholder names of a structured template, in occurrence order. -/
def namesOf : Tpl → List (List Char)
  | [] => []
  | TItem.seg _ :: r => namesOf r
  | TItem.phv n :: r => n :: namesOf r

/-- First-occurrence deduplication. -/
def dedupN : List (List Char) → List (List Char)
  | [] => []
  | x :: xs => x :: (dedupN xs).filter (fun y => y != x)

/-- Distinct placeholder names used by a structured template. -/
def distinctNames (tp : Tpl) : List (List Char) := dedupN (namesOf tp)

/-- Structural substitution: replace every placeholder named `x` by the
literal value `v`. -/
def substN (x v : List Char) : Tpl → Tpl
  | [] => []
  | TItem.seg s :: r => TItem.seg s :: substN x v r
  | TItem.phv n :: r => (if n = x then TItem.seg v else TItem.phv n) :: substN x v r

/-- Product of the value-list lengths over a list of names. -/
def prodLens (vars : VarMap) (ns : List (List Char)) : Nat :=
  (ns.map fun n => (vars n).length).prod

/-! ## Concrete instances used by witnesses and counterexamples -/

/-- Mapping sending `x` to the single value `%\x7bx\x7d` — a value that
reintroduces the very placeholder being substituted. -/
def vSelf : VarMap := fun n => if n = "x".toList then ["%{x}".toList] else []

/-- Template consisting of the single placeholder `x`. -/
def tSelf : List Char := "%{x}".toList

/-- Mapping sending `x` to the single value `%\x7by\x7d` and declaring
nothing for `y`. -/
def vIndirect : VarMap := fun n => if n = "x".toList then ["%{y}".toList] else []

/-- Structured template `a%\x7bx\x7db-%\x7by\x7d%\x7bx\x7d`. -/
def tpW : Tpl :=
  [TItem.seg ("a".toList), TItem.phv ("x".toList), TItem.seg ("b-".toList),
   TItem.phv ("y".toList), TItem.phv ("x".toList)]

/-- Mapping for the expansion witnesses: `x ↦ [1, 2]`, `y ↦ [u]`. -/
def varsW : VarMap := fun n =>
  if n = "x".toList then ["1".toList, "2".toList]
  else if n = "y".toList then ["u".toList] else []

/-- Oracle for a successful create followed by an immediately `ACTIVE`
show: spawn 0 is the create (exit 0, parsed output with an id), every later
spawn is the show command reporting `ACTIVE`. -/
def oraOk : Nat → ProcSpec := fun i =>
  if i = 0 then
    ⟨none, [], none,
     some [("id".toList, "42".toList),
           ("provisioning_status".toList, "PENDING_CREATE".toList)],
     [], 0, 5⟩
  else
    ⟨none, [], none,
     some [("id".toList, "42".toList),
           ("provisioning_status".toList, "ACTIVE".toList)],
     [], 0, 3⟩

/-- Command list with the single create command used by the C1 run. -/
def cmdsOk : List (List Char) := ["loadbalancer-create --name lb1".toList]

/-- Result record produced by spawn 0 of `oraOk` for the create command
(what `RunCommand` returns there, checked by the C1 theorem). -/
def crOk : CommandResult :=
  { Seq := 0, Command := cmdPfx ++ "loadbalancer-create --name lb1".toList,
    Out := some [("id".toList, "42".toList),
                 ("provisioning_status".toList, "PENDING_CREATE".toList)],
    Err := [], ExitCode := 0, Duration := 5, Checked := [], CheckedDuration := 0 }

/-- Oracle whose first spawn fails to start (`exec.Cmd.Start` returns a
lookup error, as for a non-existent executable name). -/
def oraStartFail : Nat → ProcSpec := fun _ =>
  ⟨some ("exec: executable file not found in $PATH".toList), [], none, none, [], 0, 1⟩

/-- Oracle on which every spawn exits 1 with an error message (so the
Orchestrator skips every check). -/
def oraExit1 : Nat → ProcSpec := fun _ =>
  ⟨none, [], some ("exit status 1".toList), none, "boom".toList, 1, 2⟩

/-- Two expanded commands for the sequence-number run. -/
def cmdsTwo : List (List Char) :=
  ["loadbalancer-create --name lb1".toList, "loadbalancer-create --name lb2".toList]

/-- Result record of a completed `show` command, as handed to the Poller. -/
def rltShow : CommandResult :=
  { Seq := 0, Command := "neutron lbaas-loadbalancer-show 123".toList,
    Out := some [], Err := [], ExitCode := 0, Duration := 7,
    Checked := [], CheckedDuration := 0 }

/-- Command whose second token has four hyphen-separated parts. -/
def cmdFourParts : List Char := "neutron lbaas-a-b-create x".toList

/-- Initial world: nothing spawned, clock zero, empty trace. -/
def st0 : WorldSt := ⟨0, 0, []⟩

/-- Full command text of the single command of `cmdsOk`. -/
def fullOk : List Char := cmdPfx ++ "loadbalancer-create --name lb1".toList

/-- World state right after spawn 0 of the C1 run. -/
def stW1 : WorldSt := ⟨1, 5, [fullOk]⟩

/-- Mapping `varsW` extended with a declared-but-unused placeholder `z`. -/
def varsW2 : VarMap := fun n => if n = "z".toList then ["junk".toList] else varsW n

/-- Result record of the first command of the `oraExit1` two-command run. -/
def crExitA : CommandResult :=
  { Seq := 0, Command := cmdPfx ++ "loadbalancer-create --name lb1".toList, Out := none,
    Err := "exit status 1".toList, ExitCode := 1, Duration := 2, Checked := [],
    CheckedDuration := 0 }

/-- Result record of the second command of the `oraExit1` two-command run. -/
def crExitB : CommandResult :=
  { Seq := 0, Command := cmdPfx ++ "loadbalancer-create --name lb2".toList, Out := none,
    Err := "exit status 1".toList, ExitCode := 1, Duration := 2, Checked := [],
    CheckedDuration := 0 }

/-- Final world state of the `oraExit1` two-command run. -/
def stTwoEnd : WorldSt :=
  ⟨2, 4, [cmdPfx ++ "loadbalancer-create --name lb1".toList,
          cmdPfx ++ "loadbalancer-create --name lb2".toList]⟩

/-! ## Theorems -/

/-- C1 (code bug): the Completion Poller's outcome is never attached to the
record in the final collection.  `RunCommand` produces `crOk` (exit code 0)
for the create command; `CheckExecution` on that very record computes
`Checked = "42: ACTIVE"` and `CheckedDuration = 8`; yet in the collection
returned by `RunCmds` the record still has the zero values `Checked = ""`
and `CheckedDuration = 0`, because Go passes `CommandResult` by value and
`RunCmds` discards the mutated copy. -/
theorem checked_outcome_never_attached :
    RunCommand oraOk fullOk st0 = some (crOk, stW1)
  ∧ (CheckExecution oraOk 9 crOk stW1).map (fun p => ((p.1).Checked, (p.1).CheckedDuration))
      = some ("42: ACTIVE".toList, 8)
  ∧ (RunCmds oraOk 9 cmdsOk st0 []).map (fun p => p.1.map fun r => (r.Checked, r.CheckedDuration))
      = some [([], 0)] := by
  refine ⟨by decide, by decide, by decide⟩

/-- C4: when the executable fails to start (e.g. a non-existent executable
name), the Command Runner returns a result record whose error text is the
start error's (non-empty) message, whose exit code is the start-failure
sentinel `-1` that the nil-safe `ProcessState.ExitCode` reports for a
process that never started, and whose structured output is absent; and the
pipeline never halts: the Orchestrator appends that record and continues
with the remaining commands. -/
theorem runner_start_failure_graceful (ora : Nat → ProcSpec) (st : WorldSt)
    (msg : List Char) (hs : (ora st.count).startErr = some msg) (hm : msg ≠ []) :
    ∀ (fuel : Nat) (n : List Char) (rest : List (List Char)) (acc : List CommandResult),
      ∃ cr st',
        RunCommand ora (cmdPfx ++ n) st = some (cr, st')
      ∧ cr.Err = msg ∧ cr.Err ≠ [] ∧ cr.ExitCode = -1 ∧ cr.Out = none
      ∧ RunCmds ora fuel (n :: rest) st acc = RunCmds ora fuel rest st' (acc ++ [cr]) := by
  intro fuel n rest acc
  have hrc : RunCommand ora (cmdPfx ++ n) st =
      some ({ Seq := 0, Command := cmdPfx ++ n, Out := none, Err := msg, ExitCode := -1,
              Duration := (ora st.count).dur, Checked := [], CheckedDuration := 0 },
            ⟨st.count + 1, st.clock + (ora st.count).dur, st.trace ++ [cmdPfx ++ n]⟩) := by
    simp only [RunCommand, hs]
  refine ⟨_, _, hrc, rfl, hm, rfl, rfl, ?_⟩
  rw [RunCmds]
  rw [hrc]
  simp

/-- Witness for `runner_start_failure_graceful` on the lookup-failure
oracle. -/
theorem runner_start_failure_graceful_witness :
    (oraStartFail st0.count).startErr
        = some ("exec: executable file not found in $PATH".toList)
  ∧ ("exec: executable file not found in $PATH".toList ≠ [])
  ∧ ∀ (fuel : Nat) (n : List Char) (rest : List (List Char)) (acc : List CommandResult),
      ∃ cr st',
        RunCommand oraStartFail (cmdPfx ++ n) st0 = some (cr, st')
      ∧ cr.Err = "exec: executable file not found in $PATH".toList
      ∧ cr.Err ≠ [] ∧ cr.ExitCode = -1 ∧ cr.Out = none
      ∧ RunCmds oraStartFail fuel (n :: rest) st0 acc
          = RunCmds oraStartFail fuel rest st' (acc ++ [cr]) :=
  ⟨by decide, by decide,
   runner_start_failure_graceful oraStartFail st0
     ("exec: executable file not found in $PATH".toList) (by decide) (by decide)⟩

/-- C5 (code bug): on the range-shaped token `99999999999999999999-1` the
first part overflows `int`, so `strconv.Atoi` reports an error; the parser
discards it (its result type has no error component at all), clamps the
part to `MaxInt64` and silently contributes nothing. -/
theorem parse_error_swallowed :
    isRangeTok ("99999999999999999999-1".toList) = true
  ∧ atoiOverflows ("99999999999999999999".toList) = true
  ∧ ParseVarValues ("99999999999999999999-1".toList) = some [] := by
  refine ⟨by decide, by decide, by decide⟩

/-- C6 (code bug): sequence numbers are not assigned by position — every
record is built with `Seq: 0` and nothing ever updates it, so a two-command
batch yields sequence numbers `[0, 0]`, not `[0, 1]`. -/
theorem seq_numbers_all_zero :
    (RunCmds oraExit1 9 cmdsTwo st0 []).map (fun p => p.1.map (·.Seq)) = some [0, 0]
  ∧ (RunCmds oraExit1 9 cmdsTwo st0 []).map (fun p => p.1.map (·.Seq)) ≠ some [0, 1] := by
  refine ⟨by decide, by decide⟩

/-- C9 counterexample: for the checked command
`neutron lbaas-loadbalancer-show 123` the Poller sets `Checked` to
`"lbaas-loadbalancer-show done"` — the whole second token followed by
`" done"` — which differs from the claim's fixed `"<verb> done"` message
(`"show done"`).  The rest of the claim holds: the world state is unchanged
(no show command spawned) and `CheckedDuration` equals the original
`Duration`. -/
theorem poller_done_message_cex :
    (CheckExecution oraExit1 9 rltShow st0).map (fun p => (p.1.Checked, p.1.CheckedDuration, p.2))
      = some ("lbaas-loadbalancer-show done".toList, 7, st0)
  ∧ "lbaas-loadbalancer-show done".toList ≠ "show done".toList := by
  refine ⟨by decide, by decide⟩

/-- C8 counterexample: on a command whose second token has four
hyphen-separated parts (`lbaas-a-b-create`), the Poller's derivation takes
parts one and two (`"a"`, `"b"`), while the token's last part — the
operation verb according to the claim — is `"create"` ≠ `"b"`. -/
theorem derive_op_not_last_cex :
    deriveOp cmdFourParts = some ("lbaas-a-b-create".toList, "a".toList, "b".toList)
  ∧ (splitSep '-' ("lbaas-a-b-create".toList)).getLast? = some ("create".toList)
  ∧ "b".toList ≠ "create".toList := by
  refine ⟨by decide, by decide, by decide⟩

/-- C2 counterexample: the template `%\x7bx\x7d` has exactly one used
placeholder, `x`, whose value list under `vIndirect` has length 1, so the
claim predicts exactly one emitted command; but the single value is itself
the placeholder `%\x7by\x7d`, whose (undeclared, hence empty) value list
prunes the branch: the expander emits zero commands. -/
theorem template_expander_count_cex :
    tSelf = flattenTpl [TItem.phv ("x".toList)]
  ∧ prodLens vIndirect (distinctNames [TItem.phv ("x".toList)]) = 1
  ∧ ConstructFromTemplate vIndirect 5 tSelf = some []
  ∧ ConstructFromTemplate vIndirect 50 tSelf = some [] := by
  refine ⟨by decide, by decide, by decide, by decide⟩

/-- C3 counterexample: on the template `%\x7bx\x7d` with the value of `x`
being `%\x7bx\x7d` itself, each recursive step reproduces the same template,
so the recursion never returns — no fuel makes the expander yield a result.
The number of distinct placeholder names does not strictly decrease. -/
theorem template_expander_nonterm_cex : ¬ TerminatesCFT vSelf tSelf := by
  intro h
  obtain ⟨n, hn⟩ := h
  have key : ∀ m, ConstructFromTemplate vSelf m tSelf = none := by
    intro m
    induction m with
    | zero => rfl
    | succ k ih =>
      have h1 : findVar tSelf = some ("%{x}".toList) := by decide
      have h2 : replaceAll ("%{x}".toList) ("%{x}".toList) tSelf = tSelf := by decide
      have h3 : vSelf (varNameOf ("%{x}".toList)) = ["%{x}".toList] := by decide
      simp only [ConstructFromTemplate, h1, h3, List.foldr, h2, ih]
  rw [key n] at hn
  simp at hn

/-- C9 (amended): a checked command whose derived operation is `show`,
`list` or `delete` never enters the polling state: the Poller spawns
nothing, leaves the world untouched, sets `Checked` immediately to
`"<second command token> done"`, and `CheckedDuration` equals the
execution `Duration`. -/
theorem poller_not_needed_immediate (ora : Nat → ProcSpec) (fuel : Nat)
    (rlt : CommandResult) (st : WorldSt) (a1 rt op : List Char)
    (hd : deriveOp rlt.Command = some (a1, rt, op))
    (hop : op = "show".toList ∨ op = "list".toList ∨ op = "delete".toList) :
    CheckExecution ora fuel rlt st =
      some ({ rlt with Checked := a1 ++ " done".toList, CheckedDuration := rlt.Duration }, st) := by
  have hne : ¬ (op = "create".toList ∨ op = "update".toList) := by
    rcases hop with h | h | h <;> subst h <;> decide
  simp only [CheckExecution, hd]
  rw [if_neg hne]
  simp

/-- Witness for `poller_not_needed_immediate` at the record `rltShow`. -/
theorem poller_not_needed_immediate_witness :
    deriveOp rltShow.Command
        = some ("lbaas-loadbalancer-show".toList, "loadbalancer".toList, "show".toList)
  ∧ CheckExecution oraExit1 9 rltShow st0 =
      some ({ rltShow with Checked := "lbaas-loadbalancer-show done".toList, CheckedDuration := rltShow.Duration }, st0) :=
  ⟨by decide,
   poller_not_needed_immediate oraExit1 9 rltShow st0 ("lbaas-loadbalancer-show".toList)
     ("loadbalancer".toList) ("show".toList) (by decide) (Or.inl rfl)⟩

/-- C8 (amended): the Poller derives the resource type and operation verb as
the second and third hyphen-separated parts of the second whitespace token;
when that token has exactly three parts these coincide with the claim's
middle part and last part. -/
theorem derive_op_second_third (cmd a1 p0 p1 p2 : List Char) (rest : List (List Char))
    (h1 : (splitSep ' ' cmd).get? 1 = some a1)
    (h2 : splitSep '-' a1 = p0 :: p1 :: p2 :: rest) :
    deriveOp cmd = some (a1, p1, p2)
  ∧ (rest = [] → (splitSep '-' a1).getLast? = some p2) := by
  constructor
  · simp only [deriveOp, h1, h2]
    rfl
  · intro hr
    subst hr
    rw [h2]
    rfl

/-- Witness for `derive_op_second_third` at a three-part second token. -/
theorem derive_op_second_third_witness :
    (splitSep ' ' ("neutron lbaas-loadbalancer-create --name lb1".toList)).get? 1
        = some ("lbaas-loadbalancer-create".toList)
  ∧ splitSep '-' ("lbaas-loadbalancer-create".toList)
        = ["lbaas".toList, "loadbalancer".toList, "create".toList]
  ∧ (deriveOp ("neutron lbaas-loadbalancer-create --name lb1".toList)
        = some ("lbaas-loadbalancer-create".toList, "loadbalancer".toList, "create".toList)
     ∧ ([] = ([] : List (List Char)) →
          (splitSep '-' ("lbaas-loadbalancer-create".toList)).getLast?
            = some ("create".toList))) :=
  ⟨by decide, by decide,
   derive_op_second_third ("neutron lbaas-loadbalancer-create --name lb1".toList)
     ("lbaas-loadbalancer-create".toList) ("lbaas".toList) ("loadbalancer".toList)
     ("create".toList) [] (by decide) (by decide)⟩

/-- Start characters are also tail characters. -/
theorem identStart_imp_tail (c : Char) (h : identStartChar c = true) : identTailChar c = true := by
  simp [identTailChar, h]

/-- Identifier characters are not the percent sign. -/
theorem identTail_ne_pct (c : Char) (h : identTailChar c = true) : c ≠ '%' := by
  intro he; subst he; simp [identTailChar, identStartChar] at h

/-- Identifier characters are not the closing brace. -/
theorem identTail_ne_rbrace (c : Char) (h : identTailChar c = true) : c ≠ '}' := by
  intro he; subst he; simp [identTailChar, identStartChar] at h

/-- Every character of a well-formed name is an identifier character. -/
theorem goodName_all_tail (n : List Char) (h : goodName n = true) : n.all identTailChar = true := by
  match n with
  | [] => simp [goodName] at h
  | c :: r =>
    simp only [goodName, Bool.and_eq_true] at h
    simp [List.all_cons, identStart_imp_tail c h.1, h.2]

/-- No token match can start at a character other than the percent sign. -/
theorem matchVarAt_ne_pct (c : Char) (y : List Char) (hc : c ≠ '%') :
    matchVarAt (c :: y) = none := by
  unfold matchVarAt
  split
  · rename_i heq
    injection heq with h1 _
    exact absurd h1 hc
  · rfl

/-- Take-while passes over a block that wholly satisfies the test. -/
theorem takeWhile_append_all (p : Char → Bool) (l y : List Char) (h : l.all p = true) :
    (l ++ y).takeWhile p = l ++ y.takeWhile p := by
  induction l with
  | nil => rfl
  | cons c l ih =>
    simp only [List.all_cons, Bool.and_eq_true] at h
    simp [List.takeWhile_cons, h.1, ih h.2]

/-- Drop-while consumes a block that wholly satisfies the test. -/
theorem dropWhile_append_all (p : Char → Bool) (l y : List Char) (h : l.all p = true) :
    (l ++ y).dropWhile p = y.dropWhile p := by
  induction l with
  | nil => rfl
  | cons c l ih =>
    simp only [List.all_cons, Bool.and_eq_true] at h
    simp [List.dropWhile_cons, h.1, ih h.2]

/-- At the start of a well-formed token the matcher returns exactly that token. -/
theorem matchVarAt_tok (n x : List Char) (hn : goodName n = true) :
    matchVarAt (tokStr n ++ x) = some (tokStr n) := by
  match n with
  | [] => simp [goodName] at hn
  | c :: r =>
    simp only [goodName, Bool.and_eq_true] at hn
    have hr : r.all identTailChar = true := hn.2
    have harr : tokStr (c :: r) ++ x = '%' :: '{' :: c :: (r ++ ('}' :: x)) := by
      simp [tokStr]
    rw [harr]
    have hdw : (r ++ ('}' :: x)).dropWhile identTailChar = '}' :: x := by
      rw [dropWhile_append_all _ _ _ hr]
      rw [List.dropWhile_cons]
      simp [identTailChar, identStartChar]
    have htw : (r ++ ('}' :: x)).takeWhile identTailChar = r := by
      rw [takeWhile_append_all _ _ _ hr]
      rw [List.takeWhile_cons]
      simp [identTailChar, identStartChar]
    simp [matchVarAt, hn.1, hdw, htw, tokStr]

/-- Characters of a well-formed segment differ from the percent sign. -/
theorem goodSeg_noPct (s : List Char) (h : goodSeg s = true) : ∀ c ∈ s, c ≠ '%' := by
  intro c hc
  have := List.all_eq_true.mp h c hc
  simpa using this

/-- Scanning skips over a percent-free block. -/
theorem findVar_noPct_append (s x : List Char) (h : ∀ c ∈ s, c ≠ '%') :
    findVar (s ++ x) = findVar x := by
  induction s with
  | nil => rfl
  | cons c s ih =>
    have hc : c ≠ '%' := h c (by simp)
    show findVar (c :: (s ++ x)) = findVar x
    rw [findVar, matchVarAt_ne_pct c _ hc]
    exact ih (fun d hd => h d (by simp [hd]))

/-- On a well-formed structured template the scanner finds exactly the first placeholder token (or nothing). -/
theorem findVar_flattenTpl (tp : Tpl) (h : goodTpl tp = true) :
    findVar (flattenTpl tp) = (namesOf tp).head?.map tokStr := by
  induction tp with
  | nil => rfl
  | cons it r ih =>
    have hit : goodItem it = true ∧ goodTpl r = true := by
      simpa [goodTpl, List.all_cons, Bool.and_eq_true] using h
    match it with
    | TItem.seg s =>
      show findVar (s ++ flattenTpl r) = _
      rw [findVar_noPct_append s _ (goodSeg_noPct s hit.1)]
      exact ih hit.2
    | TItem.phv n =>
      show findVar (tokStr n ++ flattenTpl r) = _
      have := matchVarAt_tok n (flattenTpl r) hit.1
      match hts : tokStr n ++ flattenTpl r with
      | [] => simp [tokStr] at hts
      | c :: rest =>
        rw [findVar]
        rw [← hts, this]
        rfl

/-- Extracting the name from a token undoes `tokStr`. -/
theorem varNameOf_tokStr (n : List Char) : varNameOf (tokStr n) = n := by
  show (((tokStr n).drop 2).dropLast) = n
  have : (tokStr n).drop 2 = n ++ ['}'] := by simp [tokStr]
  rw [this]
  simp

/-- Skipping `k` characters is dropping them. -/
theorem replAux_skip (t v : List Char) :
    ∀ (s : List Char) (k : Nat), replAux t v k s = replAux t v 0 (s.drop k) := by
  intro s
  induction s with
  | nil => intro k; cases k <;> rfl
  | cons c rest ih =>
    intro k
    cases k with
    | zero => rfl
    | succ k =>
      show replAux t v k rest = _
      rw [ih k]
      rfl

/-- Every list is a prefix of itself followed by anything. -/
theorem isPrefixOf_self_append (l x : List Char) : l.isPrefixOf (l ++ x) = true := by
  induction l with
  | nil => cases x <;> rfl
  | cons c l ih =>
    show ((c == c) && l.isPrefixOf (l ++ x)) = true
    rw [ih]
    simp

/-- Replacement of a token (which starts with a percent sign) passes over a percent-free block unchanged. -/
theorem replaceAll_noPct_append (t v s x : List Char) (t' : List Char) (ht : t = '%' :: t')
    (h : ∀ c ∈ s, c ≠ '%') :
    replaceAll t v (s ++ x) = s ++ replaceAll t v x := by
  induction s with
  | nil => rfl
  | cons c s ih =>
    have hc : c ≠ '%' := h c (by simp)
    have hpre : t.isPrefixOf (c :: (s ++ x)) = false := by
      subst ht
      simp only [List.isPrefixOf, Bool.and_eq_false_iff]
      left
      simpa [beq_eq_false_iff_ne] using fun he => hc he.symm
    show replAux t v 0 (c :: (s ++ x)) = c :: (s ++ replaceAll t v x)
    rw [replAux, if_neg (by simp [hpre])]
    exact congrArg (c :: ·) (ih (fun d hd => h d (by simp [hd])))

/-- Dropping the length of the first block of an append yields the second. -/
theorem drop_len_append (l x : List Char) : (l ++ x).drop l.length = x := by
  induction l with
  | nil => rfl
  | cons c l ih =>
    show (l ++ x).drop l.length = x
    exact ih

/-- Replacement at an occurrence of the pattern substitutes it and continues after it. -/
theorem replaceAll_head_match (v x : List Char) (c0 : Char) (t0 : List Char) :
    replaceAll (c0 :: t0) v ((c0 :: t0) ++ x) = v ++ replaceAll (c0 :: t0) v x := by
  have hpre : (c0 :: t0).isPrefixOf (c0 :: (t0 ++ x)) = true := isPrefixOf_self_append (c0 :: t0) x
  show replAux (c0 :: t0) v 0 (c0 :: (t0 ++ x)) = v ++ replaceAll (c0 :: t0) v x
  rw [replAux, if_pos hpre]
  rw [replAux_skip]
  rw [show (c0 :: t0).length - 1 = t0.length from rfl]
  rw [drop_len_append]
  rfl

/-- Two different identifier runs, each closed by a brace, are never in a prefix relation. -/
theorem names_isPrefixOf_false (m : List Char) :
    ∀ (n x : List Char), m.all identTailChar = true → n.all identTailChar = true → m ≠ n →
    (m ++ ['}']).isPrefixOf (n ++ '}' :: x) = false := by
  induction m with
  | nil =>
    intro n x _ hn hne
    match n with
    | [] => exact absurd rfl hne
    | c :: n' =>
      have hc : identTailChar c = true := by
        simpa [List.all_cons, Bool.and_eq_true] using (List.all_eq_true.mp hn c (by simp))
      simp only [List.nil_append, List.cons_append, List.isPrefixOf, Bool.and_eq_false_iff]
      left
      simpa [beq_eq_false_iff_ne] using fun he => identTail_ne_rbrace c hc he.symm
  | cons a m' ih =>
    intro n x hm hn hne
    have ha : identTailChar a = true := by
      simpa [List.all_cons, Bool.and_eq_true] using (List.all_eq_true.mp hm a (by simp))
    have hm' : m'.all identTailChar = true := by
      rw [List.all_cons, Bool.and_eq_true] at hm
      exact hm.2
    match n with
    | [] =>
      simp only [List.cons_append, List.nil_append, List.isPrefixOf, Bool.and_eq_false_iff]
      left
      simpa [beq_eq_false_iff_ne] using identTail_ne_rbrace a ha
    | b :: n' =>
      have hn' : n'.all identTailChar = true := by
        rw [List.all_cons, Bool.and_eq_true] at hn
        exact hn.2
      by_cases hab : a = b
      · subst hab
        have hne' : m' ≠ n' := fun he => hne (by rw [he])
        simp only [List.cons_append, List.isPrefixOf, Bool.and_eq_false_iff]
        right
        exact ih n' x hm' hn' hne'
      · simp only [List.cons_append, List.isPrefixOf, Bool.and_eq_false_iff]
        left
        simpa [beq_eq_false_iff_ne] using hab

/-- A token of one name is never a prefix of text starting with a token of a different name. -/
theorem tokStr_isPrefixOf_false (m n x : List Char) (hm : goodName m = true)
    (hn : goodName n = true) (hne : m ≠ n) :
    (tokStr m).isPrefixOf (tokStr n ++ x) = false := by
  have h1 : tokStr n ++ x = '%' :: '{' :: (n ++ ('}' :: x)) := by simp [tokStr]
  rw [h1]
  show List.isPrefixOf ('%' :: '{' :: (m ++ ['}'])) ('%' :: '{' :: (n ++ ('}' :: x))) = false
  simp only [List.isPrefixOf, Bool.and_eq_false_iff]
  right; right
  exact names_isPrefixOf_false m n x (goodName_all_tail m hm) (goodName_all_tail n hn) hne

/-- Replacement of one token passes over a token of a different name unchanged. -/
theorem replaceAll_other_tok (m n v x : List Char) (hm : goodName m = true)
    (hn : goodName n = true) (hne : m ≠ n) :
    replaceAll (tokStr m) v (tokStr n ++ x) = tokStr n ++ replaceAll (tokStr m) v x := by
  have hfalse : (tokStr m).isPrefixOf ('%' :: (('{' :: (n ++ ['}'])) ++ x)) = false :=
    tokStr_isPrefixOf_false m n x hm hn hne
  show replAux (tokStr m) v 0 ('%' :: (('{' :: (n ++ ['}'])) ++ x))
      = tokStr n ++ replaceAll (tokStr m) v x
  rw [replAux, if_neg (by intro hc; rw [hfalse] at hc; exact Bool.false_ne_true hc)]
  rw [show replAux (tokStr m) v 0 (('{' :: (n ++ ['}'])) ++ x)
        = replaceAll (tokStr m) v (('{' :: (n ++ ['}'])) ++ x) from rfl]
  rw [replaceAll_noPct_append (tokStr m) v _ x ('{' :: (m ++ ['}'])) (by simp [tokStr]) ?hpct]
  case hpct =>
    intro c hc
    rcases List.mem_cons.mp hc with rfl | hc2
    · decide
    · rcases List.mem_append.mp hc2 with hc3 | hc3
      · exact identTail_ne_pct c (List.all_eq_true.mp (goodName_all_tail n hn) c hc3)
      · have : c = '}' := by simpa using hc3
        subst this
        decide
  rfl

/-- Characters of a substitution-safe value differ from the percent sign. -/
theorem goodVal_noPct (v : List Char) (h : goodVal v = true) : ∀ c ∈ v, c ≠ '%' := by
  intro c hc
  have := List.all_eq_true.mp h c hc
  simp only [Bool.and_eq_true] at this
  simpa using this.1

/-- A substitution-safe value is a valid literal segment. -/
theorem goodSeg_of_goodVal (v : List Char) (h : goodVal v = true) : goodSeg v = true := by
  rw [goodSeg, List.all_eq_true]
  intro c hc
  simpa using goodVal_noPct v h c hc

/-- Well-formedness of a non-empty template gives well-formedness of head and tail. -/
theorem goodTpl_cons (it : TItem) (r : Tpl) (h : goodTpl (it :: r) = true) :
    goodItem it = true ∧ goodTpl r = true := by
  simpa [goodTpl, List.all_cons, Bool.and_eq_true] using h

/-- Well-formedness of a template decomposes over its head item. -/
theorem goodTpl_cons_eq (it : TItem) (r : Tpl) :
    goodTpl (it :: r) = (goodItem it && goodTpl r) := rfl

/-- Substituting a safe value preserves template well-formedness. -/
theorem goodTpl_substN (x v : List Char) (tp : Tpl) (htp : goodTpl tp = true)
    (hv : goodVal v = true) : goodTpl (substN x v tp) = true := by
  induction tp with
  | nil => rfl
  | cons it r ih =>
    obtain ⟨hit, hr⟩ := goodTpl_cons it r htp
    match it with
    | TItem.seg s =>
      show goodTpl (TItem.seg s :: substN x v r) = true
      rw [goodTpl_cons_eq, Bool.and_eq_true]
      exact ⟨hit, ih hr⟩
    | TItem.phv n =>
      show goodTpl ((if n = x then TItem.seg v else TItem.phv n) :: substN x v r) = true
      by_cases hnx : n = x
      · rw [if_pos hnx, goodTpl_cons_eq, Bool.and_eq_true]
        exact ⟨goodSeg_of_goodVal v hv, ih hr⟩
      · rw [if_neg hnx, goodTpl_cons_eq, Bool.and_eq_true]
        exact ⟨hit, ih hr⟩

/-- Names used by a well-formed template are well-formed. -/
theorem names_good (tp : Tpl) (h : goodTpl tp = true) :
    ∀ n ∈ namesOf tp, goodName n = true := by
  induction tp with
  | nil => intro n hn; simp [namesOf] at hn
  | cons it r ih =>
    obtain ⟨hit, hr⟩ := goodTpl_cons it r h
    intro n hn
    match it with
    | TItem.seg s => exact ih hr n hn
    | TItem.phv m =>
      rcases List.mem_cons.mp hn with rfl | hn2
      · exact hit
      · exact ih hr n hn2

/-- Substitution removes exactly the occurrences of the substituted name. -/
theorem namesOf_substN (x v : List Char) (tp : Tpl) :
    namesOf (substN x v tp) = (namesOf tp).filter (fun y => y != x) := by
  induction tp with
  | nil => rfl
  | cons it r ih =>
    match it with
    | TItem.seg s =>
      show namesOf (TItem.seg s :: substN x v r) = _
      simpa [namesOf] using ih
    | TItem.phv n =>
      by_cases hnx : n = x
      · subst hnx
        show namesOf ((if n = n then TItem.seg v else TItem.phv n) :: substN n v r) = _
        rw [if_pos rfl]
        show namesOf (substN n v r) = (n :: namesOf r).filter (fun y => y != n)
        rw [List.filter_cons]
        simp only [bne_self_eq_false]
        simpa using ih
      · show namesOf ((if n = x then TItem.seg v else TItem.phv n) :: substN x v r) = _
        rw [if_neg hnx]
        show n :: namesOf (substN x v r) = (n :: namesOf r).filter (fun y => y != x)
        rw [List.filter_cons]
        have : (n != x) = true := bne_iff_ne.mpr hnx
        simp only [this, if_pos]
        rw [ih]

/-- First-occurrence deduplication commutes with filtering. -/
theorem dedupN_filter (p : List Char → Bool) :
    ∀ l : List (List Char), dedupN (l.filter p) = (dedupN l).filter p := by
  intro l
  induction l with
  | nil => rfl
  | cons x xs ih =>
    by_cases hp : p x = true
    · rw [List.filter_cons, if_pos hp]
      show x :: (dedupN (xs.filter p)).filter (fun y => y != x) = _
      rw [ih]
      rw [show dedupN (x :: xs) = x :: (dedupN xs).filter (fun y => y != x) from rfl]
      rw [List.filter_cons, if_pos hp]
      rw [List.filter_filter, List.filter_filter]
      congr 1
      apply List.filter_congr
      intro a _
      rw [Bool.and_comm]
    · rw [List.filter_cons, if_neg (by simp [hp])]
      rw [ih]
      rw [show dedupN (x :: xs) = x :: (dedupN xs).filter (fun y => y != x) from rfl]
      rw [List.filter_cons, if_neg (by simp [hp])]
      rw [List.filter_filter]
      apply List.filter_congr
      intro a _
      by_cases hpa : p a = true
      · have hax : (a != x) = true := by
          rw [bne_iff_ne]
          intro he
          subst he
          exact hp hpa
        simp [hpa, hax]
      · simp [Bool.eq_false_iff.mpr hpa]

/-- Substituting the first placeholder name removes exactly it from the distinct-name list. -/
theorem distinct_decomp (tp : Tpl) (x v : List Char) (rest : List (List Char))
    (hn : namesOf tp = x :: rest) :
    distinctNames tp = x :: distinctNames (substN x v tp) := by
  rw [distinctNames, distinctNames, namesOf_substN, hn]
  rw [show dedupN (x :: rest) = x :: (dedupN rest).filter (fun y => y != x) from rfl]
  rw [List.filter_cons, if_neg (by simp)]
  rw [dedupN_filter]

theorem replaceAll_flattenTpl (x v : List Char) (tp : Tpl) (htp : goodTpl tp = true)
    (hx : goodName x = true) :
    replaceAll (tokStr x) v (flattenTpl tp) = flattenTpl (substN x v tp) := by
  induction tp with
  | nil => rfl
  | cons it r ih =>
    obtain ⟨hit, hr⟩ := goodTpl_cons it r htp
    match it with
    | TItem.seg s =>
      show replaceAll (tokStr x) v (s ++ flattenTpl r) = flattenTpl (TItem.seg s :: substN x v r)
      rw [replaceAll_noPct_append (tokStr x) v s _ ('{' :: (x ++ ['}'])) (by simp [tokStr])
          (goodSeg_noPct s hit)]
      show s ++ replaceAll (tokStr x) v (flattenTpl r) = s ++ flattenTpl (substN x v r)
      rw [ih hr]
    | TItem.phv n =>
      by_cases hnx : n = x
      · subst hnx
        show replaceAll (tokStr n) v (tokStr n ++ flattenTpl r)
            = flattenTpl ((if n = n then TItem.seg v else TItem.phv n) :: substN n v r)
        rw [if_pos rfl]
        rw [show tokStr n = '%' :: ('{' :: (n ++ ['}'])) from rfl]
        rw [replaceAll_head_match]
        show v ++ replaceAll (tokStr n) v (flattenTpl r) = v ++ flattenTpl (substN n v r)
        rw [ih hr]
      · show replaceAll (tokStr x) v (tokStr n ++ flattenTpl r)
            = flattenTpl ((if n = x then TItem.seg v else TItem.phv n) :: substN x v r)
        rw [if_neg hnx]
        rw [replaceAll_other_tok x n v _ hx hit (fun he => hnx he.symm)]
        show tokStr n ++ replaceAll (tokStr x) v (flattenTpl r)
            = tokStr n ++ flattenTpl (substN x v r)
        rw [ih hr]

/-- Product of value-list lengths over a non-empty name list. -/
theorem prodLens_cons (vars : VarMap) (x : List Char) (ns : List (List Char)) :
    prodLens vars (x :: ns) = (vars x).length * prodLens vars ns := by
  simp [prodLens]

/-- Core expansion lemma: on a well-formed structured template with substitution-safe values, the expander succeeds given fuel exceeding the number of distinct used names, emits exactly the product of the distinct used names' value-list lengths, and every emitted command is placeholder-free. -/
theorem construct_flatten_spec (vars : VarMap) (hv : GoodVars vars) :
    ∀ (fuel : Nat) (tp : Tpl), goodTpl tp = true → (distinctNames tp).length < fuel →
      ∃ l, ConstructFromTemplate vars fuel (flattenTpl tp) = some l ∧
           l.length = prodLens vars (distinctNames tp) ∧
           ∀ c ∈ l, findVar c = none := by
  intro fuel
  induction fuel with
  | zero => intro tp _ hlen; exact absurd hlen (Nat.not_lt_zero _)
  | succ k ih =>
    intro tp htp hlen
    cases hn : namesOf tp with
    | nil =>
      have hfv : findVar (flattenTpl tp) = none := by
        rw [findVar_flattenTpl tp htp, hn]; rfl
      have hd0 : distinctNames tp = [] := by
        rw [distinctNames, hn]; rfl
      refine ⟨[flattenTpl tp], ?_, ?_, ?_⟩
      · simp only [ConstructFromTemplate, hfv]
      · rw [hd0]; rfl
      · intro c hc
        rw [List.mem_singleton] at hc
        subst hc
        exact hfv
    | cons x rest =>
      have hfv : findVar (flattenTpl tp) = some (tokStr x) := by
        rw [findVar_flattenTpl tp htp, hn]; rfl
      have hx : goodName x = true := names_good tp htp x (by rw [hn]; simp)
      have hD : ∀ v : List Char,
          distinctNames (substN x v tp) = dedupN ((namesOf tp).filter (fun y => y != x)) := by
        intro v
        rw [distinctNames, namesOf_substN]
      have hdec : ∀ v : List Char, distinctNames tp = x :: distinctNames (substN x v tp) :=
        fun v => distinct_decomp tp x v rest hn
      have inner : ∀ vs : List (List Char), (∀ v ∈ vs, goodVal v = true) →
          ∃ L, (vs.foldr
              (fun v acc =>
                match ConstructFromTemplate vars k (replaceAll (tokStr x) v (flattenTpl tp)),
                    acc with
                | some xs, some ys => some (xs ++ ys)
                | _, _ => none)
              (some [])) = some L
            ∧ L.length
                = vs.length * prodLens vars (dedupN ((namesOf tp).filter (fun y => y != x)))
            ∧ ∀ c ∈ L, findVar c = none := by
        intro vs
        induction vs with
        | nil =>
          intro _
          exact ⟨[], rfl, by simp, by intro c hc; simp at hc⟩
        | cons v vs ihv =>
          intro hvs
          have hgv : goodVal v = true := hvs v (by simp)
          have hrepl : replaceAll (tokStr x) v (flattenTpl tp) = flattenTpl (substN x v tp) :=
            replaceAll_flattenTpl x v tp htp hx
          have htp' : goodTpl (substN x v tp) = true := goodTpl_substN x v tp htp hgv
          have hlen2 : (distinctNames (substN x v tp)).length < k := by
            have h := hlen
            rw [hdec v] at h
            simpa using Nat.lt_of_succ_lt_succ h
          obtain ⟨lv, hlv, hlvlen, hlvfree⟩ := ih (substN x v tp) htp' hlen2
          obtain ⟨L, hL, hLlen, hLfree⟩ := ihv (fun u hu => hvs u (by simp [hu]))
          refine ⟨lv ++ L, ?_, ?_, ?_⟩
          · rw [List.foldr_cons, hL, hrepl, hlv]
          · rw [List.length_append, hlvlen, hLlen, hD v, List.length_cons]
            ring
          · intro c hc
            rcases List.mem_append.mp hc with hc2 | hc2
            · exact hlvfree c hc2
            · exact hLfree c hc2
      obtain ⟨L, hfold, hlen3, hfree⟩ := inner (vars x) (fun v hv' => hv x v hv')
      refine ⟨L, ?_, ?_, hfree⟩
      · simp only [ConstructFromTemplate, hfv, varNameOf_tokStr]
        exact hfold
      · rw [hlen3, hdec [], hD [], prodLens_cons]

/-- The expansion depends only on the values of the names the template uses. -/
theorem construct_ext (vars vars2 : VarMap) (hv : GoodVars vars) :
    ∀ (fuel : Nat) (tp : Tpl), goodTpl tp = true →
      (∀ n ∈ namesOf tp, vars2 n = vars n) →
      ConstructFromTemplate vars2 fuel (flattenTpl tp)
        = ConstructFromTemplate vars fuel (flattenTpl tp) := by
  intro fuel
  induction fuel with
  | zero => intro tp _ _; rfl
  | succ k ih =>
    intro tp htp hagree
    cases hn : namesOf tp with
    | nil =>
      have hfv : findVar (flattenTpl tp) = none := by
        rw [findVar_flattenTpl tp htp, hn]; rfl
      simp only [ConstructFromTemplate, hfv]
    | cons x rest =>
      have hfv : findVar (flattenTpl tp) = some (tokStr x) := by
        rw [findVar_flattenTpl tp htp, hn]; rfl
      have hx : goodName x = true := names_good tp htp x (by rw [hn]; simp)
      have hvx : vars2 x = vars x := hagree x (by rw [hn]; simp)
      simp only [ConstructFromTemplate, hfv, varNameOf_tokStr, hvx]
      have hsub : ∀ vs : List (List Char), (∀ v ∈ vs, goodVal v = true) →
          vs.foldr
              (fun v acc =>
                match ConstructFromTemplate vars2 k (replaceAll (tokStr x) v (flattenTpl tp)),
                    acc with
                | some xs, some ys => some (xs ++ ys)
                | _, _ => none)
              (some [])
          = vs.foldr
              (fun v acc =>
                match ConstructFromTemplate vars k (replaceAll (tokStr x) v (flattenTpl tp)),
                    acc with
                | some xs, some ys => some (xs ++ ys)
                | _, _ => none)
              (some []) := by
        intro vs
        induction vs with
        | nil => intro _; rfl
        | cons v vs ihv =>
          intro hvs
          have hgv : goodVal v = true := hvs v (by simp)
          have hrepl := replaceAll_flattenTpl x v tp htp hx
          have hagree' : ∀ n ∈ namesOf (substN x v tp), vars2 n = vars n := by
            intro n hnm
            apply hagree
            rw [namesOf_substN] at hnm
            exact List.mem_of_mem_filter hnm
          have heq := ih (substN x v tp) (goodTpl_substN x v tp htp hgv) hagree'
          rw [List.foldr_cons, List.foldr_cons, ihv (fun u hu => hvs u (by simp [hu])),
            hrepl, heq]
      exact hsub (vars x) (fun v hv' => hv x v hv')

/-- Values of the witness mapping are substitution-safe. -/
theorem varsW_good : GoodVars varsW := by
  intro n v hv
  simp only [varsW] at hv
  split at hv
  · simp only [List.mem_cons, List.not_mem_nil, or_false] at hv
    rcases hv with rfl | rfl <;> decide
  · split at hv
    · simp only [List.mem_cons, List.not_mem_nil, or_false] at hv
      subst hv
      decide
    · simp at hv

/-- C2 (amended): for every template alternating percent-free literal segments with well-formed placeholder tokens, and every mapping whose value strings contain neither percent nor dollar, the Template Expander emits exactly the product of the value-list lengths over the distinct used placeholder names, each emitted command contains no remaining placeholder, and a mapping differing only on unused names yields the identical output. -/
theorem template_expander_count (tp : Tpl) (vars vars2 : VarMap) (fuel : Nat)
    (h1 : goodTpl tp = true) (h2 : GoodVars vars)
    (h3 : (distinctNames tp).length < fuel)
    (h4 : ∀ n ∈ namesOf tp, vars2 n = vars n) :
    ∃ l, ConstructFromTemplate vars fuel (flattenTpl tp) = some l
      ∧ l.length = prodLens vars (distinctNames tp)
      ∧ (∀ c ∈ l, findVar c = none)
      ∧ ConstructFromTemplate vars2 fuel (flattenTpl tp) = some l := by
  obtain ⟨l, hl, hlen, hfree⟩ := construct_flatten_spec vars h2 fuel tp h1 h3
  exact ⟨l, hl, hlen, hfree, by rw [construct_ext vars vars2 h2 fuel tp h1 h4, hl]⟩

/-- Witness for `template_expander_count` at the template `a%\x7bx\x7db-%\x7by\x7d%\x7bx\x7d`. -/
theorem template_expander_count_witness :
    goodTpl tpW = true ∧ (distinctNames tpW).length < 4
  ∧ (∀ n ∈ namesOf tpW, varsW2 n = varsW n)
  ∧ ∃ l, ConstructFromTemplate varsW 4 (flattenTpl tpW) = some l
      ∧ l.length = prodLens varsW (distinctNames tpW)
      ∧ (∀ c ∈ l, findVar c = none)
      ∧ ConstructFromTemplate varsW2 4 (flattenTpl tpW) = some l :=
  ⟨by decide, by decide, by decide,
   template_expander_count tpW varsW varsW2 4 (by decide) varsW_good (by decide) (by decide)⟩

/-- C3 (amended): on templates of percent-free segments and well-formed tokens with substitution-safe values, the expander terminates (a fuel of the number of distinct used names plus one suffices), and each recursion step substitutes every occurrence of the chosen name at once, strictly reducing the number of distinct names by exactly one. -/
theorem template_expander_terminates (tp : Tpl) (vars : VarMap)
    (h1 : goodTpl tp = true) (h2 : GoodVars vars) :
    TerminatesCFT vars (flattenTpl tp)
  ∧ (∀ x rest v, namesOf tp = x :: rest → goodVal v = true →
      replaceAll (tokStr x) v (flattenTpl tp) = flattenTpl (substN x v tp)
      ∧ (distinctNames (substN x v tp)).length + 1 = (distinctNames tp).length) := by
  constructor
  · obtain ⟨l, hl, _, _⟩ :=
      construct_flatten_spec vars h2 ((distinctNames tp).length + 1) tp h1 (Nat.lt_succ_self _)
    exact ⟨(distinctNames tp).length + 1, by rw [hl]; rfl⟩
  · intro x rest v hn hval
    have hx : goodName x = true := names_good tp h1 x (by rw [hn]; simp)
    refine ⟨replaceAll_flattenTpl x v tp h1 hx, ?_⟩
    rw [distinct_decomp tp x v rest hn]
    simp

/-- Witness for `template_expander_terminates` at the template `a%\x7bx\x7db-%\x7by\x7d%\x7bx\x7d`. -/
theorem template_expander_terminates_witness :
    goodTpl tpW = true
  ∧ (TerminatesCFT varsW (flattenTpl tpW)
     ∧ (∀ x rest v, namesOf tpW = x :: rest → goodVal v = true →
        replaceAll (tokStr x) v (flattenTpl tpW) = flattenTpl (substN x v tpW)
        ∧ (distinctNames (substN x v tpW)).length + 1 = (distinctNames tpW).length)) :=
  ⟨by decide, template_expander_terminates tpW varsW (by decide) varsW_good⟩

/-- Empty range: the loop body never runs when the start exceeds the end. -/
theorem rangeAsc_nil (s e : Int) (h : e < s) : rangeAsc s e = [] := by
  rw [rangeAsc]
  have h0 : (e + 1 - s).toNat = 0 := by omega
  rw [h0]
  rfl

/-- On tokens whose upper range endpoint is below `MaxInt64`, the per-token
contribution of the source terminates and coincides with the spec-side
expansion (when the lower endpoint overflows, its clamped value still
exceeds the upper endpoint, so both sides are the empty expansion). -/
theorem tokContribution_eq_spec (n : List Char)
    (h : isRangeTok n = true → natOfDigits ((splitSep '-' n).getD 1 []) < maxI64) :
    tokContribution n = some (specTokExpansion n) := by
  by_cases hr : isRangeTok n = true
  · have h1 := h hr
    simp only [tokContribution, specTokExpansion, hr, if_pos]
    have he : atoiVal ((splitSep '-' n).getD 1 [])
        = ((natOfDigits ((splitSep '-' n).getD 1 []) : Nat) : Int) := by
      rw [atoiVal, if_pos (Nat.le_of_lt h1)]
    have hloop : rangeLoop (atoiVal ((splitSep '-' n).getD 0 []))
          (atoiVal ((splitSep '-' n).getD 1 []))
        = some (rangeAsc (atoiVal ((splitSep '-' n).getD 0 []))
            (atoiVal ((splitSep '-' n).getD 1 []))) := by
      rw [rangeLoop, if_neg]
      rintro ⟨-, h2⟩
      rw [he] at h2
      omega
    rw [hloop]
    by_cases h0 : natOfDigits ((splitSep '-' n).getD 0 []) ≤ maxI64
    · rw [show atoiVal ((splitSep '-' n).getD 0 [])
            = ((natOfDigits ((splitSep '-' n).getD 0 []) : Nat) : Int) from by
          rw [atoiVal, if_pos h0]]
      rw [he]
      rfl
    · have hs : atoiVal ((splitSep '-' n).getD 0 []) = ((maxI64 : Nat) : Int) := by
        rw [atoiVal, if_neg h0]
      rw [hs, he]
      rw [rangeAsc_nil _ _ (by exact_mod_cast h1)]
      rw [rangeAsc_nil _ _ (by omega)]
      rfl
  · simp only [tokContribution, specTokExpansion]
    rw [if_neg hr, if_neg hr]

/-- When every token's contribution terminates and matches the spec-side
expansion, the parser's fold terminates and yields the in-order
concatenation. -/
theorem parse_fold_spec :
    ∀ (ls : List (List Char)) (acc : List (List Char)),
      (∀ t ∈ ls, tokContribution t = some (specTokExpansion t)) →
      ls.foldl
        (fun rlt n =>
          match rlt, tokContribution n with
          | some r, some c => some (r ++ c)
          | _, _ => none)
        (some acc)
      = some (acc ++ (ls.map specTokExpansion).flatten) := by
  intro ls
  induction ls with
  | nil => intro acc _; simp
  | cons t ls ih =>
    intro acc h
    simp only [List.foldl_cons]
    rw [h t (by simp)]
    show List.foldl _ (some (acc ++ specTokExpansion t)) ls = _
    rw [ih (acc ++ specTokExpansion t) (fun u hu => h u (by simp [hu]))]
    simp

/-- C7 counterexample: `1-99999999999999999999` is an ascending numeric
range token (lower endpoint 1, upper endpoint 10^20 - 1), but the parser
never returns on it: `Atoi` clamps the upper endpoint to `MaxInt64`, the
counting loop's `i++` wraps there, and no value list — let alone the
ascending expansion at the token's position — is ever produced. -/
theorem value_list_order_cex :
    isRangeTok ("1-99999999999999999999".toList) = true
  ∧ natOfDigits ((splitSep '-' ("1-99999999999999999999".toList)).getD 0 []) = 1
  ∧ maxI64 < natOfDigits ((splitSep '-' ("1-99999999999999999999".toList)).getD 1 [])
  ∧ natOfDigits ((splitSep '-' ("1-99999999999999999999".toList)).getD 0 [])
      < natOfDigits ((splitSep '-' ("1-99999999999999999999".toList)).getD 1 [])
  ∧ ParseVarValues ("1-99999999999999999999".toList) = none := by
  refine ⟨by decide, by decide, by decide, by decide, by decide⟩

/-- C7 (amended): the Value-List Parser maps `1-3,x,5-5` to `1,2,3,x,5` and
`a,b,c` to `a,b,c`; and provided every range token's upper endpoint is
below `MaxInt64` (so that the counting loop terminates — when it is not,
the parser never returns, see the counterexample), the parser returns the
in-order concatenation of per-token expansions: each ascending numeric
range expands to exactly the integers of its inclusive interval in strictly
ascending order at the position of its token, and every non-range token
appears verbatim in declaration order. -/
theorem value_list_parser_order :
    ParseVarValues ("1-3,x,5-5".toList)
        = some ["1".toList, "2".toList, "3".toList, "x".toList, "5".toList]
  ∧ ParseVarValues ("a,b,c".toList) = some ["a".toList, "b".toList, "c".toList]
  ∧ (∀ v : List Char,
      (∀ t ∈ splitSep ',' v, isRangeTok t = true →
        natOfDigits ((splitSep '-' t).getD 1 []) < maxI64) →
      ParseVarValues v = some (specValueList v))
  ∧ (∀ s e : Int, List.Chain' (· < ·) (rangeAsc s e)
      ∧ ∀ i : Int, (i ∈ rangeAsc s e ↔ s ≤ i ∧ i ≤ e)) := by
  refine ⟨by decide, by decide, ?_, ?_⟩
  · intro v hv
    have hfold := parse_fold_spec (splitSep ',' v) []
      (fun t ht => tokContribution_eq_spec t (hv t ht))
    rw [ParseVarValues, hfold, specValueList]
    simp
  · intro s e
    constructor
    · rw [rangeAsc]
      refine List.Pairwise.chain' (List.Pairwise.map _ ?_ (List.pairwise_lt_range _))
      intro a b hab
      show s + (a : Int) < s + (b : Int)
      omega
    · intro i
      rw [rangeAsc]
      simp only [List.mem_map, List.mem_range]
      constructor
      · rintro ⟨k, hk, hik⟩
        have hik2 : s + (k : Int) = i := hik
        clear hik
        omega
      · rintro ⟨h1, h2⟩
        refine ⟨(i - s).toNat, by omega, ?_⟩
        show s + (((i - s).toNat : Nat) : Int) = i
        omega

/-- Witness for `value_list_parser_order` at the input `1-3,x,5-5`. -/
theorem value_list_parser_order_witness :
    (∀ t ∈ splitSep ',' ("1-3,x,5-5".toList), isRangeTok t = true →
        natOfDigits ((splitSep '-' t).getD 1 []) < maxI64)
  ∧ ParseVarValues ("1-3,x,5-5".toList) = some (specValueList ("1-3,x,5-5".toList)) :=
  ⟨by decide, value_list_parser_order.2.2.1 ("1-3,x,5-5".toList) (by decide)⟩

/-- One `RunCommand` invocation appends exactly its command string to the trace. -/
theorem runCommand_trace (ora : Nat → ProcSpec) (cmd : List Char) (st : WorldSt)
    (cr : CommandResult) (st' : WorldSt) (h : RunCommand ora cmd st = some (cr, st')) :
    st'.trace = st.trace ++ [cmd] := by
  simp only [RunCommand] at h
  cases hs : (ora st.count).startErr with
  | some m =>
    rw [hs] at h
    simp only [Option.some.injEq, Prod.mk.injEq] at h
    obtain ⟨-, h2⟩ := h
    rw [← h2]
  | none =>
    rw [hs] at h
    simp only [Option.some.injEq, Prod.mk.injEq] at h
    obtain ⟨-, h2⟩ := h
    rw [← h2]

/-- The polling loop only ever hands its own check command to the Command Runner. -/
theorem pollLoop_trace (ora : Nat → ProcSpec) (checkCmd : List Char) (rlt : CommandResult) :
    ∀ (fuel : Nat) (st : WorldSt) (r : CommandResult) (st' : WorldSt),
      pollLoop ora checkCmd rlt fuel st = some (r, st') →
      ∀ c ∈ st'.trace, c ∈ st.trace ∨ c = checkCmd := by
  intro fuel
  induction fuel with
  | zero => intro st r st' h; exact absurd h (by simp [pollLoop])
  | succ k ih =>
    intro st r st' h
    rw [pollLoop] at h
    split at h
    next hrc => exact absurd h (by simp)
    next cr st1 hrc =>
      have htr : st1.trace = st.trace ++ [checkCmd] :=
        runCommand_trace ora checkCmd st cr st1 hrc
      have base : ∀ c ∈ st1.trace, c ∈ st.trace ∨ c = checkCmd := by
        intro c hc
        rw [htr] at hc
        rcases List.mem_append.mp hc with h3 | h3
        · exact Or.inl h3
        · right; simpa using h3
      split at h
      next he =>
        simp only [Option.some.injEq, Prod.mk.injEq] at h
        obtain ⟨-, h2⟩ := h
        subst h2
        exact base
      next he =>
        split at h
        next hp =>
          intro c hc
          rcases ih st1 r st' h c hc with h3 | h3
          · exact base c h3
          · exact Or.inr h3
        next hp =>
          simp only [Option.some.injEq, Prod.mk.injEq] at h
          obtain ⟨-, h2⟩ := h
          subst h2
          exact base

/-- The Poller only ever hands check-shaped commands to the Command Runner. -/
theorem checkExecution_trace (ora : Nat → ProcSpec) (fuel : Nat) (rlt : CommandResult)
    (st : WorldSt) (r : CommandResult) (st' : WorldSt)
    (h : CheckExecution ora fuel rlt st = some (r, st')) :
    ∀ c ∈ st'.trace, c ∈ st.trace ∨ checkShaped c := by
  rw [CheckExecution] at h
  split at h
  next hd => exact absurd h (by simp)
  next a1 rt op hd =>
    dsimp only [] at h
    split at h
    next hop =>
      split at h
      next hpl => exact absurd h (by simp)
      next r1 st1 hpl =>
        simp only [Option.some.injEq, Prod.mk.injEq] at h
        obtain ⟨-, h2⟩ := h
        subst h2
        intro c hc
        rcases pollLoop_trace ora _ rlt fuel st r1 st1 hpl c hc with h3 | h3
        · exact Or.inl h3
        · right
          exact ⟨rt, sprintfVal rlt.Out ("id".toList), h3⟩
    next hop =>
      simp only [Option.some.injEq, Prod.mk.injEq] at h
      obtain ⟨-, h2⟩ := h
      subst h2
      intro c hc
      exact Or.inl hc

/-- Every command string the Orchestrator's run hands to the Command Runner is either inherited, a prefixed expander output, or a check command. -/
theorem runCmds_trace (ora : Nat → ProcSpec) (fuel : Nat) :
    ∀ (cmds : List (List Char)) (st : WorldSt) (acc rs : List CommandResult) (st' : WorldSt),
      RunCmds ora fuel cmds st acc = some (rs, st') →
      ∀ c ∈ st'.trace, c ∈ st.trace ∨ (∃ n ∈ cmds, c = cmdPfx ++ n) ∨ checkShaped c := by
  intro cmds
  induction cmds with
  | nil =>
    intro st acc rs st' h
    simp only [RunCmds, Option.some.injEq, Prod.mk.injEq] at h
    obtain ⟨-, h2⟩ := h
    subst h2
    intro c hc
    exact Or.inl hc
  | cons n rest ih =>
    intro st acc rs st' h
    rw [RunCmds] at h
    split at h
    next hrc => exact absurd h (by simp)
    next cr st1 hrc =>
      have htr : st1.trace = st.trace ++ [cmdPfx ++ n] :=
        runCommand_trace ora (cmdPfx ++ n) st cr st1 hrc
      have step : ∀ c ∈ st1.trace, c ∈ st.trace ∨ ∃ m ∈ n :: rest, c = cmdPfx ++ m := by
        intro c hc
        rw [htr] at hc
        rcases List.mem_append.mp hc with h3 | h3
        · exact Or.inl h3
        · right; exact ⟨n, by simp, by simpa using h3⟩
      split at h
      next he =>
        intro c hc
        rcases ih st1 _ rs st' h c hc with h3 | h3 | h3
        · rcases step c h3 with h4 | h4
          · exact Or.inl h4
          · exact Or.inr (Or.inl h4)
        · obtain ⟨m, hm, he2⟩ := h3
          exact Or.inr (Or.inl ⟨m, by simp [hm], he2⟩)
        · exact Or.inr (Or.inr h3)
      next he =>
        split at h
        next hce => exact absurd h (by simp)
        next ig st2 hce =>
          intro c hc
          rcases ih st2 _ rs st' h c hc with h3 | h3 | h3
          · rcases checkExecution_trace ora fuel cr st1 ig st2 hce c h3 with h4 | h4
            · rcases step c h4 with h5 | h5
              · exact Or.inl h5
              · exact Or.inr (Or.inl h5)
            · exact Or.inr (Or.inr h4)
          · obtain ⟨m, hm, he2⟩ := h3
            exact Or.inr (Or.inl ⟨m, by simp [hm], he2⟩)
          · exact Or.inr (Or.inr h3)

/-- C10: every command executed during a completed run is either the fixed prefix `neutron lbaas-` concatenated with one Template Expander output string or a derived polling check command carrying the same prefix; and no expander output ever equals its own prefixed command, so outputs are never executed verbatim. -/
theorem executed_commands_prefixed (ora : Nat → ProcSpec) (fuel : Nat)
    (cmds : List (List Char)) (st : WorldSt) (acc rs : List CommandResult) (st' : WorldSt)
    (h : RunCmds ora fuel cmds st acc = some (rs, st')) :
    (∀ c ∈ st'.trace, c ∈ st.trace ∨
        (cmdPfx.isPrefixOf c = true ∧ ((∃ n ∈ cmds, c = cmdPfx ++ n) ∨ checkShaped c)))
  ∧ (∀ n : List Char, cmdPfx ++ n ≠ n) := by
  constructor
  · intro c hc
    rcases runCmds_trace ora fuel cmds st acc rs st' h c hc with h1 | h1 | h1
    · exact Or.inl h1
    · right
      obtain ⟨n, hn, rfl⟩ := h1
      exact ⟨isPrefixOf_self_append cmdPfx n, Or.inl ⟨n, hn, rfl⟩⟩
    · right
      refine ⟨?_, Or.inr h1⟩
      obtain ⟨rt, idv, rfl⟩ := h1
      rw [List.append_assoc, List.append_assoc]
      exact isPrefixOf_self_append cmdPfx (rt ++ ("-show ".toList ++ idv))
  · intro n he
    have hlen := congrArg List.length he
    rw [List.length_append] at hlen
    have h14 : cmdPfx.length = 14 := by decide
    omega

/-- Witness for `executed_commands_prefixed` on the concrete two-command run. -/
theorem executed_commands_prefixed_witness :
    RunCmds oraExit1 9 cmdsTwo st0 [] = some ([crExitA, crExitB], stTwoEnd)
  ∧ ((∀ c ∈ stTwoEnd.trace, c ∈ st0.trace ∨
        (cmdPfx.isPrefixOf c = true ∧ ((∃ n ∈ cmdsTwo, c = cmdPfx ++ n) ∨ checkShaped c)))
     ∧ (∀ n : List Char, cmdPfx ++ n ≠ n)) :=
  ⟨by decide,
   executed_commands_prefixed oraExit1 9 cmdsTwo st0 [] [crExitA, crExitB] stTwoEnd (by decide)⟩
